import Mathlib

/-!
Verification of the MockAI LocalFAQ assistant (`agent.py`).

The development shallowly embeds the core functions of the source:
`parse_faq` (FAQ parser), the corpus aggregation (`dict.update` loop of
`__main__`), `best_match` (matcher; the external `rapidfuzz`
`fuzz.token_set_ratio` similarity primitive is an explicit parameter, as
the spec treats scoring as a pluggable external collaborator), and
`polish_answer` (response formatter, with the `colorama` color constants
embedded as their literal ANSI escape strings).

Python strings are modelled as Lean `String` and all operations are
written out over `String.data` (lists of characters) so that everything
is executable and kernel-reducible.
-/

set_option autoImplicit false

namespace MockFAQ

/-- Characters treated as whitespace by Python `str.strip()` / `str.split()`
(ASCII whitespace plus the common Unicode whitespace code points). -/
def isPySpace (c : Char) : Bool :=
  c = ' ' || c = '\t' || c = '\n' || c = '\x0b' || c = '\x0c' || c = '\r' ||
  c = '\x1c' || c = '\x1d' || c = '\x1e' || c = '\x1f' ||
  c = '\u0085' || c = '\u00A0' || c = '\u1680' ||
  ('\u2000' ≤ c && c ≤ '\u200A') ||
  c = '\u2028' || c = '\u2029' || c = '\u202F' || c = '\u205F' || c = '\u3000'

/-- Python `s.strip()`: drop leading and trailing whitespace. -/
def pyStrip (s : String) : String :=
  String.mk (((s.data.dropWhile isPySpace).reverse.dropWhile isPySpace).reverse)

/-- Helper for `splitNL`: accumulates the current line (reversed). -/
def splitNLAux : List Char → List Char → List String
  | [], acc => [String.mk acc.reverse]
  | c :: rest, acc =>
    if c = '\n' then String.mk acc.reverse :: splitNLAux rest []
    else splitNLAux rest (c :: acc)

/-- Python `s.split("\n")`. -/
def splitNL (s : String) : List String := splitNLAux s.data []

/-- Helper for `pySplitWS`: accumulates the current token (reversed). -/
def splitWSAux : List Char → List Char → List String
  | [], acc => if acc.isEmpty then [] else [String.mk acc.reverse]
  | c :: rest, acc =>
    if isPySpace c then
      if acc.isEmpty then splitWSAux rest []
      else String.mk acc.reverse :: splitWSAux rest []
    else splitWSAux rest (c :: acc)

/-- Python `s.split()` (no argument): split on runs of whitespace,
discarding empty tokens. -/
def pySplitWS (s : String) : List String := splitWSAux s.data []

/-- Python `"\n".join(lst)`. -/
def joinNL : List String → String
  | [] => ""
  | [s] => s
  | s :: rest => s ++ "\n" ++ joinNL rest

/-- Python `line.replace("## ", "")` specialised to the marker pattern:
removes every non-overlapping occurrence of `"## "`, scanning left to
right (this is what `str.replace` does — it is not restricted to a
leading occurrence). -/
def removeMarker : List Char → List Char
  | '#' :: '#' :: ' ' :: rest => removeMarker rest
  | c :: rest => c :: removeMarker rest
  | [] => []

/-- Python `line.startswith("## ")`. -/
def isMarkerLine (line : String) : Bool :=
  match line.data with
  | '#' :: '#' :: ' ' :: _ => true
  | _ => false

/-- The question text the parser derives from a marker line:
`line.replace("## ", "").strip()`. -/
def questionOf (line : String) : String :=
  pyStrip (String.mk (removeMarker line.data))

/-- Keys (in order) of an association list modelling a Python dict. -/
def dictKeys (m : List (String × String)) : List String := m.map Prod.fst

/-- Python `d[k] = v` on an insertion-ordered dict: overwrite the entry
with key `k` in place if present (a dict holds a key at most once), else
append the new pair at the end. -/
def dictInsert : List (String × String) → String → String →
    List (String × String)
  | [], k, v => [(k, v)]
  | p :: rest, k, v =>
    if p.1 = k then (k, v) :: rest else p :: dictInsert rest k v

/-- Python `d.get(k)` / `d[k]`: the value stored at the first (for a dict:
only) entry with key `k`. -/
def dictLookup (m : List (String × String)) (k : String) : Option String :=
  match m with
  | [] => none
  | p :: rest => if p.1 = k then some p.2 else dictLookup rest k

/-- The value at the *last* entry with key `k` (used to characterise
left-to-right overwriting merges on lists that may repeat keys). -/
def dictLookupLast (m : List (String × String)) (k : String) : Option String :=
  match m with
  | [] => none
  | p :: rest =>
    match dictLookupLast rest k with
    | some v => some v
    | none => if p.1 = k then some p.2 else none

/-- Python `d.update(other)`: insert `other`'s entries into `d` in order,
overwriting on key collision. -/
def dict_update (m other : List (String × String)) : List (String × String) :=
  other.foldl (fun acc p => dictInsert acc p.1 p.2) m

/-- State of the `parse_faq` line scanner: the dict built so far, the
currently open question (`""` plays the role of Python's falsy
`None`/empty string — `if current_q:` rejects both), and the pending
answer lines. -/
structure ParseState where
  qas : List (String × String)
  current_q : String
  current_a : List String

/-- One iteration of the `for line in lines` loop of `parse_faq`. -/
def parseLine (s : ParseState) (line : String) : ParseState :=
  if isMarkerLine line then
    { qas :=
        if s.current_q ≠ "" then
          dictInsert s.qas s.current_q (pyStrip (joinNL s.current_a))
        else s.qas
      current_q := questionOf line
      current_a := [] }
  else if s.current_q ≠ "" then
    { s with current_a := s.current_a ++ [line] }
  else s

/-- The end-of-input flush of `parse_faq`: save the last open question. -/
def finalizeState (s : ParseState) : List (String × String) :=
  if s.current_q ≠ "" then
    dictInsert s.qas s.current_q (pyStrip (joinNL s.current_a))
  else s.qas

/-- `parse_faq(md_text)` from `agent.py`: scan the text line by line,
collecting `{question: answer}` pairs. -/
def parse_faq (md_text : String) : List (String × String) :=
  finalizeState ((splitNL md_text).foldl parseLine ⟨[], "", []⟩)

/-- The corpus built by `__main__`: `all_qas = {}` followed by
`all_qas.update(parse_faq(text))` for each document text in load order. -/
def build_corpus (texts : List String) : List (String × String) :=
  texts.foldl (fun acc t => dict_update acc (parse_faq t)) []

/-- One iteration of the `for q in questions` loop of `best_match`,
tracking `(best_q, best_score)`; `sf` is the similarity primitive
(`fuzz.token_set_ratio(user_question, q)` in the source, an external
library treated as a parameter; rapidfuzz scores lie in `[0, 100]`,
modelled as rationals). -/
def bmStep (sf : String → String → ℚ) (uq : String)
    (p : Option String × ℚ) (q : String) : Option String × ℚ :=
  if sf uq q > p.2 then (some q, sf uq q) else p

/-- The dynamic threshold of `best_match`: buckets by
`len(user_question.split())`, then `max(threshold, 35)`. -/
def py_threshold (uq : String) : ℚ :=
  max (if (pySplitWS uq).length ≤ 2 then 40
       else if (pySplitWS uq).length ≤ 4 then 45
       else 50) 35

/-- `best_match(user_question, questions)` from `agent.py`, parametrised
by the similarity primitive `sf`. Returns `none` for Python's `None`. -/
def best_match (sf : String → String → ℚ) (user_question : String)
    (questions : List String) : Option String :=
  let p := questions.foldl (bmStep sf user_question) (none, 0)
  if p.2 ≥ py_threshold user_question then p.1 else none

/-- The acceptance threshold exactly as the claim states it: 40 for token
count ≤ 2, 45 for count 3–4, 50 for count ≥ 5, then clamped with
`max(threshold, 35)`. -/
def claimThreshold (uq : String) : ℚ :=
  max (if (pySplitWS uq).length ≤ 2 then 40
       else if 3 ≤ (pySplitWS uq).length ∧ (pySplitWS uq).length ≤ 4 then 45
       else 50) 35

/-- The best (maximum) similarity score over a list of candidates. -/
def maxScore (sf : String → String → ℚ) (uq : String) :
    List String → ℚ
  | [] => 0
  | q :: rest => rest.foldl (fun a r => max a (sf uq r)) (sf uq q)

/-- The backtick character (U+0060). -/
def backquote : Char := Char.ofNat 96

/-- Python `cleaned.replace(backquote, "")`: remove all backticks. -/
def pyRemoveBackticks (s : String) : String :=
  String.mk (s.data.filter (fun c => ¬ c = backquote))

/-- `colorama.Fore.RED`. -/
def FORE_RED : String := "\x1b[31m"

/-- `colorama.Fore.CYAN`. -/
def FORE_CYAN : String := "\x1b[36m"

/-- `colorama.Style.RESET_ALL`. -/
def STYLE_RESET_ALL : String := "\x1b[0m"

/-- `polish_answer(answer_text)` from `agent.py` (the `colorama`
constants are embedded as their literal ANSI escape strings; Python's
`if not answer_text` is the `= ""` test on a string argument). -/
def polish_answer (answer_text : String) : String :=
  if answer_text = "" then
    FORE_RED ++ "I don’t have information about that yet." ++ STYLE_RESET_ALL
  else
    FORE_CYAN ++ "Here’s what I found:\n\n" ++
      pyRemoveBackticks (pyStrip answer_text) ++ STYLE_RESET_ALL

/-- `b` is a suffix of `a` (character-wise). -/
def strEndsWith (a b : String) : Bool := b.data.isSuffixOf a.data

/-- The marker lines of a document, in order. -/
def markerLines (t : String) : List String :=
  (splitNL t).filter isMarkerLine

/-- The question texts carried by the marker lines of a document. -/
def markerQuestions (t : String) : List String :=
  (markerLines t).map questionOf

/-- A key that the parser could legitimately produce from the line list
`L`: nonempty, and derived from some marker line of `L`. -/
def goodKey (L : List String) (k : String) : Prop :=
  k ≠ "" ∧ ∃ l ∈ L, isMarkerLine l = true ∧ k = questionOf l

/-! ## Lemmas about the dict model -/

theorem dictKeys_nil : dictKeys [] = [] := rfl

theorem dictKeys_cons (p : String × String) (m : List (String × String)) :
    dictKeys (p :: m) = p.1 :: dictKeys m := rfl

theorem dictKeys_dictInsert (m : List (String × String)) (k v : String) :
    dictKeys (dictInsert m k v)
      = if k ∈ dictKeys m then dictKeys m else dictKeys m ++ [k] := by
  induction m with
  | nil => simp [dictInsert, dictKeys]
  | cons p rest ih =>
    by_cases hpk : p.1 = k
    · simp [dictInsert, hpk, dictKeys_cons]
    · have hne : ¬ k = p.1 := fun h => hpk h.symm
      simp only [dictInsert, if_neg hpk, dictKeys_cons, ih,
        List.mem_cons, hne, false_or]
      by_cases hmem : k ∈ dictKeys rest
      · simp [hmem]
      · simp [hmem]

theorem length_dictInsert_notmem (m : List (String × String)) (k v : String)
    (h : k ∉ dictKeys m) : (dictInsert m k v).length = m.length + 1 := by
  induction m with
  | nil => rfl
  | cons p rest ih =>
    simp only [dictKeys_cons, List.mem_cons, not_or] at h
    simp only [dictInsert, if_neg (fun hh : p.1 = k => h.1 hh.symm),
      List.length_cons, ih h.2]

theorem dictLookup_eq_none_of_notmem (m : List (String × String)) (k : String)
    (h : k ∉ dictKeys m) : dictLookup m k = none := by
  induction m with
  | nil => rfl
  | cons p rest ih =>
    simp only [dictKeys_cons, List.mem_cons, not_or] at h
    simp only [dictLookup]
    rw [if_neg (fun hh : p.1 = k => h.1 hh.symm), ih h.2]

theorem dictLookupLast_eq_none_of_notmem (m : List (String × String))
    (k : String) (h : k ∉ dictKeys m) : dictLookupLast m k = none := by
  induction m with
  | nil => rfl
  | cons p rest ih =>
    simp only [dictKeys_cons, List.mem_cons, not_or] at h
    simp only [dictLookupLast]
    rw [ih h.2, if_neg (fun hh : p.1 = k => h.1 hh.symm)]

theorem dictLookup_isSome_of_mem (m : List (String × String)) (k : String)
    (h : k ∈ dictKeys m) : ∃ v, dictLookup m k = some v := by
  induction m with
  | nil => simp [dictKeys] at h
  | cons p rest ih =>
    by_cases hpk : p.1 = k
    · exact ⟨p.2, by simp [dictLookup, hpk]⟩
    · rw [dictKeys_cons] at h
      rcases List.mem_cons.1 h with hh | hh
      · exact absurd hh.symm hpk
      · rcases ih hh with ⟨v, hv⟩
        exact ⟨v, by simp [dictLookup, hpk, hv]⟩

theorem dictLookup_dictInsert (m : List (String × String)) (k v k' : String) :
    dictLookup (dictInsert m k v) k'
      = if k' = k then some v else dictLookup m k' := by
  induction m with
  | nil =>
    by_cases hk' : k' = k
    · simp [dictInsert, dictLookup, hk']
    · simp only [dictInsert, dictLookup]
      rw [if_neg (fun h : k = k' => hk' h.symm), if_neg hk']
  | cons p rest ih =>
    by_cases hpk : p.1 = k
    · by_cases hk' : k' = k
      · simp [dictInsert, hpk, dictLookup, hk']
      · simp only [dictInsert, if_pos hpk, dictLookup]
        rw [if_neg (fun h : k = k' => hk' h.symm), if_neg hk',
          if_neg (fun h : p.1 = k' => hk' (hpk.symm.trans h).symm)]
    · by_cases hpk' : p.1 = k'
      · have : ¬ k' = k := fun h => hpk (hpk'.trans h)
        simp [dictInsert, hpk, dictLookup, hpk', this]
      · simp only [dictInsert, if_neg hpk, dictLookup, if_neg hpk', ih]

theorem dictLookup_dict_update (m other : List (String × String))
    (k : String) :
    dictLookup (dict_update m other) k
      = match dictLookupLast other k with
        | some v => some v
        | none => dictLookup m k := by
  induction other generalizing m with
  | nil => rfl
  | cons p rest ih =>
    show dictLookup (dict_update (dictInsert m p.1 p.2) rest) k = _
    rw [ih]
    simp only [dictLookupLast]
    cases h : dictLookupLast rest k with
    | some v => rfl
    | none =>
      rw [dictLookup_dictInsert]
      by_cases hk : p.1 = k
      · rw [if_pos hk, if_pos hk.symm]
      · rw [if_neg hk, if_neg (fun h : k = p.1 => hk h.symm)]

/-! ## Lemmas about the matcher fold -/

theorem best_match_eq (sf : String → String → ℚ) (uq : String)
    (qs : List String) :
    best_match sf uq qs
      = if (qs.foldl (bmStep sf uq) (none, 0)).2 ≥ py_threshold uq
        then (qs.foldl (bmStep sf uq) (none, 0)).1 else none := rfl

theorem bmFold_fst_cases (sf : String → String → ℚ) (uq : String)
    (qs : List String) (p : Option String × ℚ) :
    (qs.foldl (bmStep sf uq) p).1 = p.1 ∨
      ∃ q ∈ qs, (qs.foldl (bmStep sf uq) p).1 = some q := by
  induction qs generalizing p with
  | nil => exact Or.inl rfl
  | cons q rest ih =>
    simp only [List.foldl_cons]
    rcases ih (bmStep sf uq p q) with h | ⟨r, hr, h⟩
    · by_cases hs : sf uq q > p.2
      · refine Or.inr ⟨q, List.mem_cons_self q rest, ?_⟩
        rw [h]
        simp [bmStep, hs]
      · refine Or.inl ?_
        rw [h]
        simp [bmStep, hs]
    · exact Or.inr ⟨r, List.mem_cons_of_mem q hr, h⟩

theorem bmFold_snd (sf : String → String → ℚ) (uq : String)
    (qs : List String) (p : Option String × ℚ) :
    (qs.foldl (bmStep sf uq) p).2
      = qs.foldl (fun a r => max a (sf uq r)) p.2 := by
  induction qs generalizing p with
  | nil => rfl
  | cons q rest ih =>
    simp only [List.foldl_cons, ih]
    congr 1
    by_cases hs : sf uq q > p.2
    · simp [bmStep, hs, max_eq_right (le_of_lt hs)]
    · simp [bmStep, hs, max_eq_left (not_lt.1 hs)]

theorem foldl_max_le (f : String → ℚ) (l : List String) (x : ℚ) :
    x ≤ l.foldl (fun a r => max a (f r)) x := by
  induction l generalizing x with
  | nil => exact le_refl x
  | cons q rest ih =>
    exact le_trans (le_max_left x (f q)) (ih (max x (f q)))

theorem bmFold_snd_mono (sf : String → String → ℚ) (uq : String)
    (qs : List String) (p : Option String × ℚ) :
    p.2 ≤ (qs.foldl (bmStep sf uq) p).2 := by
  rw [bmFold_snd]
  exact foldl_max_le (sf uq) qs p.2

theorem bmFold_fst_of_snd_eq (sf : String → String → ℚ) (uq : String)
    (qs : List String) (p : Option String × ℚ)
    (h : (qs.foldl (bmStep sf uq) p).2 = p.2) :
    (qs.foldl (bmStep sf uq) p).1 = p.1 := by
  induction qs generalizing p with
  | nil => rfl
  | cons q rest ih =>
    simp only [List.foldl_cons] at h ⊢
    by_cases hs : sf uq q > p.2
    · exfalso
      have h1 := bmFold_snd_mono sf uq rest (bmStep sf uq p q)
      rw [h] at h1
      have h2 : (bmStep sf uq p q).2 = sf uq q := by simp [bmStep, hs]
      rw [h2] at h1
      exact absurd (lt_of_lt_of_le hs h1) (lt_irrefl _)
    · have hstep : bmStep sf uq p q = p := by simp [bmStep, hs]
      rw [hstep] at h ⊢
      exact ih p h

theorem bmFold_fst_find (sf : String → String → ℚ) (uq : String)
    (qs : List String) (p : Option String × ℚ)
    (h : p.2 < (qs.foldl (bmStep sf uq) p).2) :
    (qs.foldl (bmStep sf uq) p).1
      = qs.find? (fun q => decide (sf uq q = (qs.foldl (bmStep sf uq) p).2)) := by
  induction qs generalizing p with
  | nil => exact absurd h (lt_irrefl _)
  | cons q rest ih =>
    simp only [List.foldl_cons] at h ⊢
    by_cases hs : sf uq q > p.2
    · have hstep : bmStep sf uq p q = (some q, sf uq q) := by simp [bmStep, hs]
      rw [hstep] at h
      simp only [hstep]
      by_cases himp :
          sf uq q < (rest.foldl (bmStep sf uq) (some q, sf uq q)).2
      · rw [ih (some q, sf uq q) himp]
        rw [List.find?_cons_of_neg]
        simp only [decide_eq_true_eq]
        intro hq
        exact lt_irrefl _ (lt_of_le_of_lt (le_of_eq hq.symm) himp)
      · have hge := bmFold_snd_mono sf uq rest (some q, sf uq q)
        have h2 : (rest.foldl (bmStep sf uq) (some q, sf uq q)).2 = sf uq q :=
          le_antisymm (not_lt.1 himp) hge
        rw [bmFold_fst_of_snd_eq sf uq rest (some q, sf uq q) h2, h2]
        rw [List.find?_cons_of_pos]
        simp
    · have hstep : bmStep sf uq p q = p := by simp [bmStep, hs]
      rw [hstep] at h
      simp only [hstep]
      rw [ih p h]
      rw [List.find?_cons_of_neg]
      simp only [decide_eq_true_eq]
      intro hq
      have : sf uq q ≤ p.2 := not_lt.1 hs
      rw [hq] at this
      exact absurd (lt_of_lt_of_le h this) (lt_irrefl _)

theorem foldl_max_init (f : String → ℚ) (l : List String) (x y : ℚ) :
    l.foldl (fun a r => max a (f r)) (max x y)
      = max x (l.foldl (fun a r => max a (f r)) y) := by
  induction l generalizing y with
  | nil => rfl
  | cons q rest ih =>
    simp only [List.foldl_cons, max_assoc, ih]

theorem bmFold_snd_eq_maxScore (sf : String → String → ℚ) (uq : String)
    (q : String) (rest : List String) :
    ((q :: rest).foldl (bmStep sf uq) (none, 0)).2
      = max 0 (maxScore sf uq (q :: rest)) := by
  rw [bmFold_snd]
  simp only [List.foldl_cons, maxScore]
  exact foldl_max_init (sf uq) rest 0 (sf uq q)

theorem foldl_max_attained (f : String → ℚ) (l : List String) (x : ℚ) :
    l.foldl (fun a r => max a (f r)) x = x ∨
      ∃ r ∈ l, l.foldl (fun a r => max a (f r)) x = f r := by
  induction l generalizing x with
  | nil => exact Or.inl rfl
  | cons q rest ih =>
    simp only [List.foldl_cons]
    rcases ih (max x (f q)) with h | ⟨r, hr, h⟩
    · rcases max_choice x (f q) with hm | hm
      · exact Or.inl (by rw [h, hm])
      · exact Or.inr ⟨q, List.mem_cons_self q rest, by rw [h, hm]⟩
    · exact Or.inr ⟨r, List.mem_cons_of_mem q hr, h⟩

theorem maxScore_attained (sf : String → String → ℚ) (uq : String)
    (q : String) (rest : List String) :
    ∃ r ∈ q :: rest, sf uq r = maxScore sf uq (q :: rest) := by
  unfold maxScore
  rcases foldl_max_attained (sf uq) rest (sf uq q) with h | ⟨r, hr, h⟩
  · exact ⟨q, List.mem_cons_self q rest, h.symm⟩
  · exact ⟨r, List.mem_cons_of_mem q hr, h.symm⟩

theorem py_threshold_ge (uq : String) : (35 : ℚ) ≤ py_threshold uq :=
  le_max_right _ _

theorem py_threshold_pos (uq : String) : (0 : ℚ) < py_threshold uq :=
  lt_of_lt_of_le (by norm_num) (py_threshold_ge uq)

theorem claimThreshold_eq_py_threshold (uq : String) :
    claimThreshold uq = py_threshold uq := by
  unfold claimThreshold py_threshold
  split_ifs <;> first | rfl | omega

theorem dictLookupLast_eq_dictLookup (m : List (String × String)) (k : String)
    (h : (dictKeys m).Nodup) : dictLookupLast m k = dictLookup m k := by
  induction m with
  | nil => rfl
  | cons p rest ih =>
    rw [dictKeys_cons, List.nodup_cons] at h
    simp only [dictLookupLast, dictLookup]
    by_cases hpk : p.1 = k
    · subst hpk
      rw [dictLookupLast_eq_none_of_notmem rest p.1 h.1]
      simp
    · rw [ih h.2, if_neg hpk]
      cases dictLookup rest k <;> simp [hpk]

/-! ## Lemmas about the parser state machine -/

theorem parseLine_not_marker (s : ParseState) (line : String)
    (h : ¬ isMarkerLine line = true) :
    (parseLine s line).qas = s.qas ∧
      (parseLine s line).current_q = s.current_q := by
  by_cases hq : s.current_q ≠ ""
  · simp [parseLine, h, hq]
  · simp [parseLine, h, hq]

theorem parseLine_marker_open (s : ParseState) (line : String)
    (h : isMarkerLine line = true) (hq : s.current_q ≠ "") :
    parseLine s line
      = ⟨dictInsert s.qas s.current_q (pyStrip (joinNL s.current_a)),
          questionOf line, []⟩ := by
  simp [parseLine, h, hq]

theorem parseLine_marker_closed (s : ParseState) (line : String)
    (h : isMarkerLine line = true) (hq : s.current_q = "") :
    parseLine s line = ⟨s.qas, questionOf line, []⟩ := by
  simp [parseLine, h, hq]

theorem mem_dictKeys_dictInsert (m : List (String × String))
    (k0 v k : String) (h : k ∈ dictKeys (dictInsert m k0 v)) :
    k ∈ dictKeys m ∨ k = k0 := by
  rw [dictKeys_dictInsert] at h
  by_cases hmem : k0 ∈ dictKeys m
  · rw [if_pos hmem] at h
    exact Or.inl h
  · rw [if_neg hmem] at h
    rcases List.mem_append.1 h with h | h
    · exact Or.inl h
    · exact Or.inr (List.mem_singleton.1 h)

theorem parse_fold_length (ls : List String) (s : ParseState)
    (hnd : (dictKeys s.qas ++ ((if s.current_q = "" then [] else [s.current_q])
              ++ (ls.filter isMarkerLine).map questionOf)).Nodup)
    (hne : ∀ l ∈ ls, isMarkerLine l = true → questionOf l ≠ "") :
    (finalizeState (ls.foldl parseLine s)).length
      = s.qas.length + (if s.current_q = "" then 0 else 1)
          + (ls.filter isMarkerLine).length := by
  induction ls generalizing s with
  | nil =>
    simp only [List.foldl_nil, List.filter_nil, List.length_nil, Nat.add_zero]
    unfold finalizeState
    by_cases hq : s.current_q = ""
    · simp [hq]
    · have hcq : s.current_q ∉ dictKeys s.qas := by
        simp only [List.filter_nil, List.map_nil, List.append_nil,
          if_neg hq] at hnd
        rcases List.nodup_append.1 hnd with ⟨_, _, hdisj⟩
        intro hmem
        exact hdisj hmem (List.mem_singleton.2 rfl)
      rw [if_pos hq, length_dictInsert_notmem s.qas s.current_q _ hcq]
      simp [hq]
  | cons l ls ih =>
    have hne' : ∀ l' ∈ ls, isMarkerLine l' = true → questionOf l' ≠ "" :=
      fun l' hl' => hne l' (List.mem_cons_of_mem l hl')
    by_cases hm : isMarkerLine l = true
    · have hql : questionOf l ≠ "" := hne l (List.mem_cons_self l ls) hm
      by_cases hq : s.current_q = ""
      · rw [List.foldl_cons, parseLine_marker_closed s l hm hq]
        have hnd2 : (dictKeys (⟨s.qas, questionOf l, []⟩ : ParseState).qas ++
            ((if (⟨s.qas, questionOf l, []⟩ : ParseState).current_q = ""
                then [] else [(⟨s.qas, questionOf l, []⟩ : ParseState).current_q])
              ++ (ls.filter isMarkerLine).map questionOf)).Nodup := by
          simp only [if_neg hql]
          have hnd' := hnd
          simp only [if_pos hq, List.nil_append,
            List.filter_cons_of_pos hm, List.map_cons] at hnd'
          simpa using hnd'
        have hih := ih ⟨s.qas, questionOf l, []⟩ hnd2 hne'
        simp only at hih
        rw [hih, List.filter_cons_of_pos hm, List.length_cons]
        simp only [if_neg hql, if_pos hq]
        omega
      · rw [List.foldl_cons, parseLine_marker_open s l hm hq]
        have hcq : s.current_q ∉ dictKeys s.qas := by
          rcases List.nodup_append.1 hnd with ⟨_, _, hdisj⟩
          intro hmem
          exact hdisj hmem (by
            rw [if_neg hq]
            exact List.mem_cons_self _ _)
        have hkeys : dictKeys (dictInsert s.qas s.current_q
            (pyStrip (joinNL s.current_a)))
              = dictKeys s.qas ++ [s.current_q] := by
          rw [dictKeys_dictInsert, if_neg hcq]
        have hnd2 : (dictKeys (dictInsert s.qas s.current_q
              (pyStrip (joinNL s.current_a))) ++
            ((if questionOf l = "" then [] else [questionOf l])
              ++ (ls.filter isMarkerLine).map questionOf)).Nodup := by
          rw [hkeys, if_neg hql]
          have hnd' := hnd
          simp only [if_neg hq, List.filter_cons_of_pos hm,
            List.map_cons] at hnd'
          rw [List.append_assoc]
          simpa using hnd'
        have hih := ih ⟨dictInsert s.qas s.current_q
            (pyStrip (joinNL s.current_a)), questionOf l, []⟩ hnd2 hne'
        simp only at hih
        rw [hih, List.filter_cons_of_pos hm, List.length_cons,
          length_dictInsert_notmem s.qas s.current_q _ hcq]
        simp only [if_neg hql, if_neg hq]
        omega
    · rw [List.foldl_cons]
      rcases parseLine_not_marker s l hm with ⟨h1, h2⟩
      have hnd2 : (dictKeys (parseLine s l).qas ++
          ((if (parseLine s l).current_q = ""
              then [] else [(parseLine s l).current_q])
            ++ (ls.filter isMarkerLine).map questionOf)).Nodup := by
        rw [h1, h2]
        rw [List.filter_cons_of_neg hm] at hnd
        exact hnd
      have hih := ih (parseLine s l) hnd2 hne'
      rw [hih, h1, h2, List.filter_cons_of_neg hm]

theorem parse_fold_goodKeys (L ls : List String) (s : ParseState)
    (hls : ∀ l ∈ ls, l ∈ L)
    (hqas : ∀ k ∈ dictKeys s.qas, goodKey L k)
    (hcq : s.current_q ≠ "" → goodKey L s.current_q) :
    (∀ k ∈ dictKeys (ls.foldl parseLine s).qas, goodKey L k) ∧
      ((ls.foldl parseLine s).current_q ≠ "" →
        goodKey L (ls.foldl parseLine s).current_q) := by
  induction ls generalizing s with
  | nil => exact ⟨hqas, hcq⟩
  | cons l ls ih =>
    rw [List.foldl_cons]
    have hls' : ∀ l' ∈ ls, l' ∈ L := fun l' hl' => hls l' (List.mem_cons_of_mem l hl')
    by_cases hm : isMarkerLine l = true
    · have hcq' : (parseLine s l).current_q ≠ "" → goodKey L (parseLine s l).current_q := by
        intro hne
        by_cases hq : s.current_q = ""
        · rw [parseLine_marker_closed s l hm hq] at hne ⊢
          exact ⟨hne, l, hls l (List.mem_cons_self l ls), hm, rfl⟩
        · rw [parseLine_marker_open s l hm hq] at hne ⊢
          exact ⟨hne, l, hls l (List.mem_cons_self l ls), hm, rfl⟩
      have hqas' : ∀ k ∈ dictKeys (parseLine s l).qas, goodKey L k := by
        intro k hk
        by_cases hq : s.current_q = ""
        · rw [parseLine_marker_closed s l hm hq] at hk
          exact hqas k hk
        · rw [parseLine_marker_open s l hm hq] at hk
          rcases mem_dictKeys_dictInsert _ _ _ _ hk with h | h
          · exact hqas k h
          · exact h ▸ hcq hq
      exact ih (parseLine s l) hls' hqas' hcq'
    · rcases parseLine_not_marker s l hm with ⟨h1, h2⟩
      refine ih (parseLine s l) hls' ?_ ?_
      · rw [h1]
        exact hqas
      · rw [h2]
        exact hcq

theorem mem_dictKeys_finalize (s : ParseState) (k : String)
    (hk : k ∈ dictKeys (finalizeState s)) :
    k ∈ dictKeys s.qas ∨ (k = s.current_q ∧ s.current_q ≠ "") := by
  unfold finalizeState at hk
  by_cases hq : s.current_q ≠ ""
  · rw [if_pos hq] at hk
    rcases mem_dictKeys_dictInsert _ _ _ _ hk with h | h
    · exact Or.inl h
    · exact Or.inr ⟨h, hq⟩
  · rw [if_neg hq] at hk
    exact Or.inl hk

theorem parse_faq_goodKeys (t : String) :
    ∀ k ∈ dictKeys (parse_faq t), goodKey (splitNL t) k := by
  intro k hk
  unfold parse_faq at hk
  have hfold := parse_fold_goodKeys (splitNL t) (splitNL t) ⟨[], "", []⟩
    (fun l hl => hl) (by intro k hk; simp [dictKeys] at hk)
    (by intro h; exact absurd rfl h)
  rcases mem_dictKeys_finalize _ k hk with h | ⟨hkq, hne⟩
  · exact hfold.1 k h
  · exact hkq ▸ hfold.2 hne

theorem mem_dictKeys_dict_update (m other : List (String × String))
    (k : String) (hk : k ∈ dictKeys (dict_update m other)) :
    k ∈ dictKeys m ∨ k ∈ dictKeys other := by
  induction other generalizing m with
  | nil => exact Or.inl hk
  | cons p rest ih =>
    have hk' : k ∈ dictKeys (dict_update (dictInsert m p.1 p.2) rest) := hk
    rcases ih (dictInsert m p.1 p.2) hk' with h | h
    · rcases mem_dictKeys_dictInsert _ _ _ _ h with h | h
      · exact Or.inl h
      · exact Or.inr (by
          rw [dictKeys_cons, h]
          exact List.mem_cons_self _ _)
    · exact Or.inr (by
        rw [dictKeys_cons]
        exact List.mem_cons_of_mem _ h)

theorem mem_build_corpus (texts : List String) (k : String)
    (hk : k ∈ dictKeys (build_corpus texts)) :
    ∃ t ∈ texts, k ∈ dictKeys (parse_faq t) := by
  have main : ∀ (ts : List String) (acc : List (String × String)),
      k ∈ dictKeys (ts.foldl (fun acc t => dict_update acc (parse_faq t)) acc) →
      k ∈ dictKeys acc ∨ ∃ t ∈ ts, k ∈ dictKeys (parse_faq t) := by
    intro ts
    induction ts with
    | nil => exact fun acc h => Or.inl h
    | cons t ts ih =>
      intro acc h
      rcases ih (dict_update acc (parse_faq t)) h with h' | ⟨t', ht', hmem⟩
      · rcases mem_dictKeys_dict_update _ _ _ h' with h'' | h''
        · exact Or.inl h''
        · exact Or.inr ⟨t, List.mem_cons_self t ts, h''⟩
      · exact Or.inr ⟨t', List.mem_cons_of_mem t ht', hmem⟩
  rcases main texts [] hk with h | h
  · simp [dictKeys] at h
  · exact h

theorem dropWhile_space_all_nil (l : List Char)
    (h : (l.dropWhile isPySpace).all isPySpace = true) :
    l.dropWhile isPySpace = [] := by
  induction l with
  | nil => rfl
  | cons c rest ih =>
    by_cases hc : isPySpace c = true
    · rw [List.dropWhile_cons_of_pos hc] at h ⊢
      exact ih h
    · rw [List.dropWhile_cons_of_neg hc] at h
      rcases List.all_eq_true.1 h c (List.mem_cons_self c rest) with h'
      exact absurd h' hc

theorem pyStrip_not_all_space (r : String) (hne : pyStrip r ≠ "") :
    ¬ (pyStrip r).data.all isPySpace = true := by
  intro hall
  apply hne
  unfold pyStrip at hall ⊢
  have hall' :
      ((r.data.dropWhile isPySpace).reverse.dropWhile isPySpace).all
        isPySpace = true := by
    rw [List.all_eq_true] at hall ⊢
    intro c hc
    exact hall c (by
      simp only [String.data] at *
      exact List.mem_reverse.2 hc)
  have := dropWhile_space_all_nil (r.data.dropWhile isPySpace).reverse hall'
  rw [this]
  rfl

theorem best_match_accept (sf : String → String → ℚ) (uq : String)
    (q0 : String) (rest : List String)
    (hacc : py_threshold uq ≤ maxScore sf uq (q0 :: rest)) :
    best_match sf uq (q0 :: rest)
      = (q0 :: rest).find?
          (fun q => decide (sf uq q = maxScore sf uq (q0 :: rest))) := by
  have hpos : (0 : ℚ) < maxScore sf uq (q0 :: rest) :=
    lt_of_lt_of_le (py_threshold_pos uq) hacc
  have hmax : ((q0 :: rest).foldl (bmStep sf uq) (none, 0)).2
      = maxScore sf uq (q0 :: rest) := by
    rw [bmFold_snd_eq_maxScore, max_eq_right (le_of_lt hpos)]
  have hcond : ((q0 :: rest).foldl (bmStep sf uq) (none, 0)).2
      ≥ py_threshold uq := by
    rw [hmax]
    exact hacc
  have hlt : ((none : Option String), (0 : ℚ)).2
      < ((q0 :: rest).foldl (bmStep sf uq) (none, 0)).2 := by
    rw [hmax]
    exact hpos
  rw [best_match_eq, if_pos hcond, bmFold_fst_find sf uq (q0 :: rest) _ hlt]
  simp only [hmax]

/-! ## The claims -/

/-- Claim C1: the scenario document parses to exactly the two-entry
mapping; in particular the last question's accumulated answer lines are
joined, trimmed and stored at end of input. -/
theorem C1_parse_scenario :
    parse_faq "## How do I reset my password?\nGo to Settings.\n## Where are logs stored?\nLogs are in /var/log.\n"
      = [("How do I reset my password?", "Go to Settings."),
         ("Where are logs stored?", "Logs are in /var/log.")] := by decide

/-- Claim C2, code evaluated at the failing input: `str.replace` removes
*every* occurrence of the marker string `"## "` in the line, so the inner
occurrence is not preserved in the question key — the key becomes
"Does work?" instead of the claimed "Does ## work?". -/
theorem C2_inner_marker_removed :
    parse_faq "## Does ## work?\nYes." = [("Does work?", "Yes.")] ∧
      "Does work?" ≠ "Does ## work?" := by decide

/-- Claim C3, counterexample: the document "## " has exactly one marker
line and (vacuously) pairwise-distinct question texts, yet `parse_faq`
returns zero entries — the empty question text is falsy in Python, so it
is never stored. -/
theorem C3_cex :
    (markerQuestions "## ").Nodup ∧ (markerLines "## ").length = 1 ∧
      (parse_faq "## ").length = 0 := by decide

/-- Claim C3 (amended): for every document whose marker lines carry
pairwise-distinct *and nonempty* question texts, the number of entries
returned by the parser equals the number of marker lines. -/
theorem C3_entry_count (t : String)
    (hnd : (markerQuestions t).Nodup)
    (hne : ∀ q ∈ markerQuestions t, q ≠ "") :
    (parse_faq t).length = (markerLines t).length := by
  unfold parse_faq
  have hne' : ∀ l ∈ splitNL t, isMarkerLine l = true → questionOf l ≠ "" := by
    intro l hl hm
    exact hne (questionOf l)
      (List.mem_map_of_mem questionOf (List.mem_filter.2 ⟨hl, hm⟩))
  have hnd0 : (dictKeys ([] : List (String × String)) ++
      ((if ("" : String) = "" then [] else [("" : String)])
        ++ ((splitNL t).filter isMarkerLine).map questionOf)).Nodup := by
    simpa [dictKeys] using hnd
  have h := parse_fold_length (splitNL t) ⟨[], "", []⟩ hnd0 hne'
  simpa [markerLines] using h

theorem C3_entry_count_witness :
    (markerQuestions "## A\nx\n## B").Nodup ∧
      (∀ q ∈ markerQuestions "## A\nx\n## B", q ≠ "") ∧
      (parse_faq "## A\nx\n## B").length
        = (markerLines "## A\nx\n## B").length :=
  ⟨by decide, by decide, C3_entry_count "## A\nx\n## B" (by decide) (by decide)⟩

/-- Claim C4: the threshold is 40 for a query of at most 2 whitespace
tokens, 45 for 3–4 tokens, 50 for 5 or more, clamped with
`max(threshold, 35)`; on a non-empty question set the best-scoring
question is returned exactly when the best score is ≥ the threshold
(equality accepted). -/
theorem C4_threshold (sf : String → String → ℚ) (uq : String)
    (qs : List String) (hqs : qs ≠ []) :
    claimThreshold uq = py_threshold uq ∧
    (claimThreshold uq ≤ maxScore sf uq qs →
      ∃ q ∈ qs, best_match sf uq qs = some q ∧
        sf uq q = maxScore sf uq qs) ∧
    (maxScore sf uq qs < claimThreshold uq → best_match sf uq qs = none) := by
  cases qs with
  | nil => exact absurd rfl hqs
  | cons q0 rest =>
    refine ⟨claimThreshold_eq_py_threshold uq, ?_, ?_⟩
    · intro hacc
      rw [claimThreshold_eq_py_threshold] at hacc
      have h := best_match_accept sf uq q0 rest hacc
      rcases maxScore_attained sf uq q0 rest with ⟨r, hr, hscore⟩
      have hfind : (q0 :: rest).find?
          (fun q => decide (sf uq q = maxScore sf uq (q0 :: rest))) ≠ none := by
        intro hnone
        rw [List.find?_eq_none] at hnone
        exact hnone r hr (by simp [hscore])
      cases hfd : (q0 :: rest).find?
          (fun q => decide (sf uq q = maxScore sf uq (q0 :: rest))) with
      | none => exact absurd hfd hfind
      | some q =>
        refine ⟨q, List.mem_of_find?_eq_some hfd, ?_, ?_⟩
        · rw [h, hfd]
        · have hp := List.find?_some hfd
          simpa using hp
    · intro hlt
      rw [claimThreshold_eq_py_threshold] at hlt
      have hcond : ¬ ((q0 :: rest).foldl (bmStep sf uq) (none, 0)).2
          ≥ py_threshold uq := by
        rw [bmFold_snd_eq_maxScore]
        intro hge
        rcases max_choice (0 : ℚ) (maxScore sf uq (q0 :: rest)) with hm | hm
        · rw [hm] at hge
          exact absurd hge (not_le.2 (py_threshold_pos uq))
        · rw [hm] at hge
          exact absurd hge (not_le.2 hlt)
      rw [best_match_eq, if_neg hcond]

theorem C4_threshold_witness :
    (["alpha"] : List String) ≠ [] ∧
    (claimThreshold "hi" = py_threshold "hi" ∧
     (claimThreshold "hi"
         ≤ maxScore (fun _ q => if q = "alpha" then 40 else 0) "hi" ["alpha"] →
       ∃ q ∈ (["alpha"] : List String),
         best_match (fun _ q => if q = "alpha" then 40 else 0) "hi" ["alpha"]
             = some q ∧
           (if q = "alpha" then (40 : ℚ) else 0)
             = maxScore (fun _ q => if q = "alpha" then 40 else 0) "hi"
                 ["alpha"]) ∧
     (maxScore (fun _ q => if q = "alpha" then 40 else 0) "hi" ["alpha"]
         < claimThreshold "hi" →
       best_match (fun _ q => if q = "alpha" then 40 else 0) "hi" ["alpha"]
         = none)) :=
  ⟨by decide,
    C4_threshold (fun _ q => if q = "alpha" then 40 else 0) "hi" ["alpha"]
      (by decide)⟩

/-- Claim C5, counterexample: with query "x" and candidates "aaaa" and
"bbbb", a similarity primitive scoring both 0 (as `token_set_ratio` does
for strings sharing no characters — the spec's "disjoint token sets score
near 0"), both candidates attain the maximum score, yet `best_match`
returns `none` rather than the first candidate at the maximum. -/
theorem C5_cex :
    maxScore (fun _ _ => 0) "x" ["aaaa", "bbbb"] = 0 ∧
    (fun (_ _ : String) => (0 : ℚ)) "x" "aaaa"
        = maxScore (fun _ _ => 0) "x" ["aaaa", "bbbb"] ∧
    (fun (_ _ : String) => (0 : ℚ)) "x" "bbbb"
        = maxScore (fun _ _ => 0) "x" ["aaaa", "bbbb"] ∧
    best_match (fun _ _ => 0) "x" ["aaaa", "bbbb"] = none ∧
    ¬ best_match (fun _ _ => 0) "x" ["aaaa", "bbbb"] = some "aaaa" := by
  decide

/-- Claim C5 (amended): whenever the maximum similarity score meets the
acceptance threshold, `best_match` returns the first candidate in
iteration order attaining that maximum score. -/
theorem C5_first_at_max (sf : String → String → ℚ) (uq : String)
    (q0 : String) (rest : List String)
    (hacc : claimThreshold uq ≤ maxScore sf uq (q0 :: rest)) :
    best_match sf uq (q0 :: rest)
      = (q0 :: rest).find?
          (fun q => decide (sf uq q = maxScore sf uq (q0 :: rest))) := by
  rw [claimThreshold_eq_py_threshold] at hacc
  exact best_match_accept sf uq q0 rest hacc

theorem C5_first_at_max_witness :
    claimThreshold "hi" ≤ maxScore (fun _ _ => 50) "hi" ("a" :: ["b"]) ∧
    best_match (fun _ _ => 50) "hi" ("a" :: ["b"]) = some "a" :=
  ⟨by decide, by
    have h := C5_first_at_max (fun _ _ => 50) "hi" "a" ["b"] (by decide)
    rw [h]
    decide⟩

/-- Claim C6: on an empty question set `best_match` returns `None` for
every query and every similarity primitive — the initial best score 0 is
below the threshold floor. -/
theorem C6_empty_questions (sf : String → String → ℚ) (uq : String) :
    best_match sf uq [] = none := by
  rw [best_match_eq]
  by_cases h : (([] : List String).foldl (bmStep sf uq) (none, 0)).2
      ≥ py_threshold uq
  · rw [if_pos h]
    rfl
  · rw [if_neg h]

/-- Claim C7: merging two key-unique per-document mappings with disjoint
key sets gives the same mapping (as a lookup function) in either order;
and for every merge order, each key of the later-merged mapping receives
the later mapping's value. -/
theorem C7_merge_order (m1 m2 : List (String × String))
    (h1 : (dictKeys m1).Nodup) (h2 : (dictKeys m2).Nodup) :
    ((∀ k, k ∈ dictKeys m1 → k ∉ dictKeys m2) →
      ∀ k, dictLookup (dict_update m1 m2) k
          = dictLookup (dict_update m2 m1) k) ∧
    (∀ k, k ∈ dictKeys m2 →
      dictLookup (dict_update m1 m2) k = dictLookup m2 k) := by
  constructor
  · intro hdisj k
    rw [dictLookup_dict_update, dictLookup_dict_update,
      dictLookupLast_eq_dictLookup m2 k h2,
      dictLookupLast_eq_dictLookup m1 k h1]
    by_cases hk2 : k ∈ dictKeys m2
    · have hk1 : k ∉ dictKeys m1 := fun hk1 => hdisj k hk1 hk2
      rw [dictLookup_eq_none_of_notmem m1 k hk1]
      rcases dictLookup_isSome_of_mem m2 k hk2 with ⟨v, hv⟩
      rw [hv]
    · rw [dictLookup_eq_none_of_notmem m2 k hk2]
      cases hx : dictLookup m1 k <;> rfl
  · intro k hk2
    rw [dictLookup_dict_update, dictLookupLast_eq_dictLookup m2 k h2]
    rcases dictLookup_isSome_of_mem m2 k hk2 with ⟨v, hv⟩
    rw [hv]

theorem C7_merge_order_witness :
    (dictKeys [("a", "1")]).Nodup ∧ (dictKeys [("b", "2")]).Nodup ∧
    (((∀ k, k ∈ dictKeys [("a", "1")] → k ∉ dictKeys [("b", "2")]) →
      ∀ k, dictLookup (dict_update [("a", "1")] [("b", "2")]) k
          = dictLookup (dict_update [("b", "2")] [("a", "1")]) k) ∧
    (∀ k, k ∈ dictKeys [("b", "2")] →
      dictLookup (dict_update [("a", "1")] [("b", "2")]) k
        = dictLookup [("b", "2")] k)) :=
  ⟨by decide, by decide,
    C7_merge_order [("a", "1")] [("b", "2")] (by decide) (by decide)⟩

/-- Claim C8, counterexample: `polish_answer` wraps its output in ANSI
color escape codes, so the result is not "exactly the preamble plus the
cleaned answer" for *any* preamble wording — the cleaned answer is not
even a suffix of the output (a reset code follows it). -/
theorem C8_cex :
    polish_answer "Use `install.exe`."
        ≠ "Here’s what I found:\n\nUse install.exe." ∧
      strEndsWith (polish_answer "Use `install.exe`.") "Use install.exe."
        = false := by decide

/-- Claim C8 (amended): on an empty answer `polish_answer` returns the
fixed red-colored "no information yet" message; on a nonempty answer it
returns the cyan color code, the fixed preamble "Here’s what I found:",
two newlines, the whitespace-stripped and backtick-free answer, and the
terminal reset code. -/
theorem C8_polish (a : String) (ha : a ≠ "") :
    polish_answer a
        = FORE_CYAN ++ "Here’s what I found:\n\n"
            ++ pyRemoveBackticks (pyStrip a) ++ STYLE_RESET_ALL ∧
      polish_answer ""
        = FORE_RED ++ "I don’t have information about that yet."
            ++ STYLE_RESET_ALL := by
  constructor
  · unfold polish_answer
    rw [if_neg ha]
  · rfl

theorem C8_polish_witness :
    ("Use `install.exe`." : String) ≠ "" ∧
    (polish_answer "Use `install.exe`."
        = FORE_CYAN ++ "Here’s what I found:\n\n"
            ++ pyRemoveBackticks (pyStrip "Use `install.exe`.")
            ++ STYLE_RESET_ALL ∧
      polish_answer ""
        = FORE_RED ++ "I don’t have information about that yet."
            ++ STYLE_RESET_ALL) :=
  ⟨by decide, C8_polish "Use `install.exe`." (by decide)⟩

/-- Claim C9: every key of the merged corpus is the question text the
parser derived from some marker line of some loaded document, and no key
is empty or whitespace-only. -/
theorem C9_corpus_keys (texts : List String) (k : String)
    (hk : k ∈ dictKeys (build_corpus texts)) :
    (∃ t ∈ texts, ∃ l ∈ splitNL t,
        isMarkerLine l = true ∧ k = questionOf l) ∧
      k ≠ "" ∧ ¬ k.data.all isPySpace = true := by
  rcases mem_build_corpus texts k hk with ⟨t, ht, hmem⟩
  rcases parse_faq_goodKeys t k hmem with ⟨hne, l, hl, hm, hk'⟩
  refine ⟨⟨t, ht, l, hl, hm, hk'⟩, hne, ?_⟩
  rw [hk']
  have hql : questionOf l ≠ "" := hk' ▸ hne
  exact pyStrip_not_all_space (String.mk (removeMarker l.data)) hql

theorem C9_corpus_keys_witness :
    "A" ∈ dictKeys (build_corpus ["## A\nB"]) ∧
    ((∃ t ∈ (["## A\nB"] : List String), ∃ l ∈ splitNL t,
        isMarkerLine l = true ∧ "A" = questionOf l) ∧
      ("A" : String) ≠ "" ∧ ¬ ("A" : String).data.all isPySpace = true) :=
  ⟨by decide, C9_corpus_keys ["## A\nB"] "A" (by decide)⟩

/-- Claim C10: `best_match` returns either `None` or one of the supplied
candidate questions — never a string that was not among the candidates. -/
theorem C10_result_membership (sf : String → String → ℚ) (uq : String)
    (qs : List String) :
    best_match sf uq qs = none ∨ ∃ q ∈ qs, best_match sf uq qs = some q := by
  rw [best_match_eq]
  by_cases h : ((qs.foldl (bmStep sf uq) (none, 0)).2 ≥ py_threshold uq)
  · rw [if_pos h]
    rcases bmFold_fst_cases sf uq qs (none, 0) with h1 | ⟨q, hq, h1⟩
    · exact Or.inl h1
    · exact Or.inr ⟨q, hq, h1⟩
  · rw [if_neg h]
    exact Or.inl rfl

end MockFAQ
